import Mathlib

set_option maxHeartbeats 1000000

namespace Mitsumori

/-!  Embedding of the text-to-record extraction engine of the mitsumori
repository (src/app/domain/invoice.py, src/app/services/ocr_service.py,
src/estimate_proto/domain/invoice.py,
src/estimate_proto/services/excel_service.py).

Text is modelled as `List Char`; Python strings are sequences of Unicode
code points and every offset in the source is a code-point offset, so the
embedding's offsets agree with the source's.  The source's regular
expressions are each embedded directly as a recursive matcher with the
backtracking semantics Python's `re` has on that concrete pattern.
`\d` is modelled as the ASCII digits and `\s` as ASCII whitespace. -/

/-- Numeric value of a decimal digit character. -/
def digitVal (c : Char) : Nat := c.toNat - '0'.toNat

/-- Python `int` on a string of decimal digits (never fails when the
string is non-empty and all digits, which is the only shape the callers
below ever hand it after stripping separators). -/
def natFromDigits (ds : List Char) : Nat :=
  ds.foldl (fun a c => 10 * a + digitVal c) 0

/-- The regex fragment `(\d{1,2})月` anchored at the head of `cs`.
Greedy `\d{1,2}` tries two digits first, then one; after two digits the
one-digit alternative can never succeed (the second digit is not `月`),
so the match is deterministic.  Returns the captured number and the
characters remaining after the `月`. -/
def monthHeadAt : List Char → Option (Nat × List Char)
  | a :: b :: rest =>
    if a.isDigit then
      if b.isDigit then
        match rest with
        | '月' :: rest2 => some (10 * digitVal a + digitVal b, rest2)
        | _ => none
      else if b = '月' then some (digitVal a, rest)
      else none
    else none
  | _ => none

/-- One step of `re.finditer(r"(\d{1,2})月", text)`: on a match record
`(capturedNumber, startOffset)` and resume after the matched characters,
otherwise advance one character.  `fuel` bounds the recursion;
`cs.length` always suffices because every step consumes at least one
character. -/
def findMarkersAux : Nat → List Char → Nat → List (Nat × Nat)
  | 0, _, _ => []
  | _ + 1, [], _ => []
  | fuel + 1, c :: rest, pos =>
    match monthHeadAt (c :: rest) with
    | some (m, after) =>
        (m, pos) :: findMarkersAux fuel after (pos + (rest.length + 1 - after.length))
    | none => findMarkersAux fuel rest (pos + 1)

/-- `list(re.finditer(r"(\d{1,2})月", text))` as the list of
`(capturedNumber, startOffset)` pairs in document order. -/
def findMonthMarkers (cs : List Char) : List (Nat × Nat) :=
  findMarkersAux cs.length cs 0

/-- `extract_month_segments` (src/app/domain/invoice.py, lines 72-99).
Iterates over the *full* match list with its index `idx`; an occurrence
whose captured number is outside `[1,12]` is skipped (`_safe_int` cannot
fail on an all-digit group, and Python's `1 <= month <= 12` on a present
number is the range test); a kept occurrence contributes
`(month, start, end)` where `end` is the start of the occurrence at
full-list index `idx+1` — kept or not — or the text length when `idx`
is the last index of the full list. -/
def extract_month_segments (cs : List Char) : List (Nat × Nat × Nat) :=
  let ms := findMonthMarkers cs
  (List.range ms.length).filterMap (fun idx =>
    match ms.get? idx with
    | some (m, start) =>
      if 1 ≤ m ∧ m ≤ 12 then
        match ms.get? (idx + 1) with
        | some (_, s2) => some (m, start, s2)
        | none => some (m, start, cs.length)
      else none
    | none => none)

/-- The regex fragment `[^\n]{0,maxGap}suffix` anchored at the head of
`cs`: some gap of at most `maxGap` non-newline characters followed by
the literal `suffix`.  (Greedy vs. lazy gap choice is irrelevant here:
only whether some match exists, and the captured group lies before the
gap.) -/
def gapSuffix (suffix : List Char) : Nat → List Char → Bool
  | 0, cs => suffix.isPrefixOf cs
  | g + 1, cs =>
    suffix.isPrefixOf cs ||
      (match cs with
       | c :: rest => decide (c ≠ '\n') && gapSuffix suffix g rest
       | [] => false)

/-- Whether the pattern `(\d{1,2})月[^\n]{0,maxGap}suffix` matches at the
head of `cs`; on a match, the captured number. -/
def patAt (suffix : List Char) (maxGap : Nat) (cs : List Char) : Option Nat :=
  match monthHeadAt cs with
  | some (m, rest) => if gapSuffix suffix maxGap rest then some m else none
  | none => none

/-- `re.search` of the pattern `(\d{1,2})月[^\n]{0,maxGap}suffix`: the
captured number of the leftmost match, or `none`.  With `suffix = []`
and `maxGap = 0` this is the bare pattern `(\d{1,2})月`. -/
def searchPat (suffix : List Char) (maxGap : Nat) : List Char → Option Nat
  | [] => none
  | c :: rest =>
    match patAt suffix maxGap (c :: rest) with
    | some m => some m
    | none => searchPat suffix maxGap rest

/-- `1 <= month <= 12` — with `month = 0` also rejected by Python's
`if month and ...` truthiness test (src/app/domain/invoice.py line 36). -/
def validMonth (m : Nat) : Bool := decide (1 ≤ m) && decide (m ≤ 12)

/-- One prioritized-pattern step of `extract_month_for_single`: when the
pattern's leftmost match captures a number in `[1,12]` return it;
when the pattern does not match, or its leftmost match's number is out
of range, fall through to the rest of the chain. -/
def patStep (res : Option Nat) (next : Option Nat) : Option Nat :=
  match res with
  | some m => if validMonth m then some m else next
  | none => next

/-- The suffix literal `ご使用分` of the first prioritized pattern. -/
def suffixGoShiyoubun : List Char := ['ご', '使', '用', '分']

/-- The suffix literal `ご請求分` of the second prioritized pattern. -/
def suffixGoSeikyuubun : List Char := ['ご', '請', '求', '分']

/-- The suffix literal `分` of the third prioritized pattern
`(\d{1,2})月分` (no gap). -/
def suffixBun : List Char := ['分']

/-- `extract_month_for_single` (src/app/domain/invoice.py, lines 18-47):
try `(\d{1,2})月[^\n]{0,5}ご使用分`, `(\d{1,2})月[^\n]{0,5}ご請求分`,
`(\d{1,2})月分` in order, each returning its leftmost match's captured
number when that number lies in `[1,12]` and otherwise falling through;
then fall back to the leftmost bare `(\d{1,2})月` occurrence, returning
its number when in `[1,12]` and `none` otherwise. -/
def extract_month_for_single (cs : List Char) : Option Nat :=
  patStep (searchPat suffixGoShiyoubun 5 cs) <|
  patStep (searchPat suffixGoSeikyuubun 5 cs) <|
  patStep (searchPat suffixBun 0 cs) <|
  (match searchPat [] 0 cs with
   | some m => if validMonth m then some m else none
   | none => none)

/-- `extract_month` (src/estimate_proto/domain/invoice.py, lines 8-41):
the same patterns, range test and fall-through as
`extract_month_for_single` (its `int` of an all-digit group never
raises, and `month = 0` fails `1 <= month <= 12` just as it fails the
truthiness test of the other variant). -/
def extract_month (cs : List Char) : Option Nat :=
  patStep (searchPat suffixGoShiyoubun 5 cs) <|
  patStep (searchPat suffixGoSeikyuubun 5 cs) <|
  patStep (searchPat suffixBun 0 cs) <|
  (match searchPat [] 0 cs with
   | some m => if validMonth m then some m else none
   | none => none)

/-- A character matched by the class `[\d,]`. -/
def isSepDigit (c : Char) : Bool := c.isDigit || c = ','

/-- The regex `([\d,]+)\s*kWh` (case-insensitive) anchored at the head
of `cs`.  On these character classes backtracking never helps: a
character given back by the greedy `[\d,]+` is a digit or comma, hence
neither whitespace nor `k`/`K`, and one given back by `\s*` is
whitespace, hence not `k`/`K`; so both runs are maximal and the match is
deterministic.  Returns the captured group (the `[\d,]+` run) and the
characters after the whole match. -/
def kwhAt (cs : List Char) : Option (List Char × List Char) :=
  let run := cs.takeWhile isSepDigit
  if run.isEmpty then none
  else
    match (cs.dropWhile isSepDigit).dropWhile Char.isWhitespace with
    | k :: w :: h :: rest =>
      if k.toLower = 'k' && w.toLower = 'w' && h.toLower = 'h' then
        some (run, rest)
      else none
    | _ => none

/-- `re.findall(r"([\d,]+)\s*kWh", text, flags=re.IGNORECASE)`: scan
left to right, on a match record the captured group and resume after
the match, otherwise advance one character.  `fuel` bounds the
recursion; `cs.length` always suffices. -/
def kwhFindAux : Nat → List Char → List (List Char)
  | 0, _ => []
  | _ + 1, [] => []
  | fuel + 1, c :: rest =>
    match kwhAt (c :: rest) with
    | some (g, after) => g :: kwhFindAux fuel after
    | none => kwhFindAux fuel rest

/-- The list of captured groups of `re.findall(r"([\d,]+)\s*kWh", text,
flags=re.IGNORECASE)` in document order. -/
def kwhMatches (cs : List Char) : List (List Char) :=
  kwhFindAux cs.length cs

/-- `_safe_int(raw.replace(",", ""))`: strip the separators and parse.
Python `int` fails exactly when the remaining digit string is empty
(the group is digits and commas only, so no other failure shape
exists). -/
def parseKwhGroup (g : List Char) : Option Nat :=
  let ds := g.filter (fun c => c ≠ ',')
  if ds.isEmpty then none else some (natFromDigits ds)

/-- The well-formed, non-zero kWh-tagged values of a text, in document
order: the loop body shared by `extract_kwh_single`,
`extract_kwh_value`, `extract_kwh_from_segment` and
`OcrService._extract_kwh_from_text` (a parse failure is skipped, a
parsed zero is skipped). -/
def kwhValues (cs : List Char) : List Nat :=
  (kwhMatches cs).filterMap (fun g =>
    match parseKwhGroup g with
    | some v => if v = 0 then none else some v
    | none => none)

/-- `extract_kwh_single` (src/app/domain/invoice.py, lines 50-69):
`""` when no valid value survives, otherwise the decimal string of the
maximum surviving value. -/
def extract_kwh_single (cs : List Char) : String :=
  match kwhValues cs with
  | [] => ""
  | v :: vs => toString (vs.foldl Nat.max v)

/-- `extract_kwh_value` (src/estimate_proto/domain/invoice.py, lines
44-69): the same scan, skip and maximum as `extract_kwh_single`. -/
def extract_kwh_value (cs : List Char) : String :=
  match kwhValues cs with
  | [] => ""
  | v :: vs => toString (vs.foldl Nat.max v)

/-- `extract_kwh_from_segment` (src/app/domain/invoice.py, lines
102-120): as `extract_kwh_single` but returning the number itself,
`none` when no valid value survives. -/
def extract_kwh_from_segment (cs : List Char) : Option Nat :=
  match kwhValues cs with
  | [] => none
  | v :: vs => some (vs.foldl Nat.max v)

/-- `OcrService._extract_kwh_from_text` (src/app/services/
ocr_service.py, lines 133-151): the same scan with `v > 0` in place of
skipping `v == 0` — identical on the non-negative values `int` yields
on digit strings. -/
def extract_kwh_from_text (cs : List Char) : String :=
  let nums := (kwhMatches cs).filterMap (fun g =>
    match parseKwhGroup g with
    | some v => if 0 < v then some v else none
    | none => none)
  match nums with
  | [] => ""
  | v :: vs => toString (vs.foldl Nat.max v)

/-!  The `fields` dictionary.  Every key the source ever writes is the
string `f"{mappedMonth}月値"` with `mappedMonth ∈ [1,12]`, and every
lookup (`ExcelService`) probes exactly those twelve strings; the keys
are therefore modelled by the number itself.  A Python dict assignment
updates an existing key in place and otherwise appends, and lookup
finds the (unique) entry with the key. -/

/-- A `fields` dictionary: month key → value string. -/
abbrev Fields : Type := List (Nat × String)

/-- Python `d[k] = v`: replace the value of an existing key, else
append the new entry. -/
def setField (fs : Fields) (k : Nat) (v : String) : Fields :=
  if fs.any (fun p => p.1 = k) then
    fs.map (fun p => if p.1 = k then (k, v) else p)
  else fs ++ [(k, v)]

/-- Python `d[k]` / `k in d`: the value stored at key `k`, if any. -/
def getField (fs : Fields) (k : Nat) : Option String :=
  (fs.find? (fun p => p.1 = k)).map (·.2)

/-- The month shift `mapped_month = 12 if month == 1 else month - 1`
inlined at src/app/domain/invoice.py lines 170 and 206 and
src/app/services/ocr_service.py line 122. -/
def shift (month : Nat) : Nat := if month = 1 then 12 else month - 1

/-- `Invoice._from_text_single` (src/app/domain/invoice.py, lines
161-174): one entry `{shift month: kwh}` when the locator yields a
month and the scanner a non-empty string, else the empty record. -/
def fromTextSingle (cs : List Char) : Fields :=
  match extract_month_for_single cs with
  | some month =>
    let kwh := extract_kwh_single cs
    if kwh ≠ "" then setField [] (shift month) kwh else []
  | none => []

/-- `Invoice.from_text` (src/estimate_proto/domain/invoice.py, lines
90-103): the single-period builder of the prototype variant. -/
def fromTextProto (cs : List Char) : Fields :=
  match extract_month cs with
  | some month =>
    let kwh := extract_kwh_value cs
    if kwh ≠ "" then setField [] (shift month) kwh else []
  | none => []

/-- Python `text[a:b]` on code points. -/
def pySlice (cs : List Char) (a b : Nat) : List Char :=
  (cs.drop a).take (b - a)

/-- `Invoice._from_text_multi` (src/app/domain/invoice.py, lines
179-210): fold the segments in order, writing
`fields[shift month] = str(v)` whenever the segment's scan yields a
value (an empty segment list gives the empty record, which the fold
also gives). -/
def fromTextMulti (cs : List Char) : Fields :=
  (extract_month_segments cs).foldl
    (fun fields seg =>
      match extract_kwh_from_segment (pySlice cs seg.2.1 seg.2.2) with
      | some v => setField fields (shift seg.1) (toString v)
      | none => fields)
    []

/-- `OcrService._next_month` (src/app/services/ocr_service.py, lines
153-155). -/
def nextMonth (month : Nat) : Nat := if month = 12 then 1 else month + 1

/-- Pages joined by `"\n".join(...)` on the character level. -/
def joinPages (pages : List (List Char)) : List Char :=
  match pages with
  | [] => []
  | p :: ps => ps.foldl (fun acc q => acc ++ '\n' :: q) p

/-- The body of one iteration of the `for i in range(12)` loop of
`OcrService._analyze_multi`: slice the i-th page group, scan it, and on
a non-empty result write `fields[shift currentMonth]`. -/
def multiStep (pts : List (List Char)) (ppm : Nat) (i : Nat)
    (currentMonth : Nat) (fields : Fields) : Fields :=
  let monthText := joinPages ((pts.drop (i * ppm)).take ppm)
  let kwh := extract_kwh_from_text monthText
  if kwh ≠ "" then setField fields (shift currentMonth) kwh else fields

/-- The `for i in range(12)` loop of `OcrService._analyze_multi`,
carrying `current_month` across iterations: `count` iterations remain
and `i` is the next loop index. -/
def multiLoop (pts : List (List Char)) (ppm : Nat) :
    Nat → Nat → Nat → Fields → Fields
  | 0, _, _, fields => fields
  | count + 1, i, currentMonth, fields =>
      multiLoop pts ppm count (i + 1) (nextMonth currentMonth)
        (multiStep pts ppm i currentMonth fields)

/-- The fatal precondition failure of the paginated strategy
(`raise ValueError(...)` at src/app/services/ocr_service.py lines
104-107). -/
inductive OcrError : Type
  | invalidPageCount (actual : Nat) : OcrError
deriving DecidableEq, Repr

/-- `OcrService._analyze_multi` (src/app/services/ocr_service.py, lines
80-128) from the page texts on: reject a page count other than
12/24/36, else run the twelve-group loop with
`pages_per_month = num_pages // 12` starting from `start_month`. -/
def analyzeMulti (pts : List (List Char)) (startMonth : Nat) :
    Except OcrError Fields :=
  let numPages := pts.length
  if numPages = 12 ∨ numPages = 24 ∨ numPages = 36 then
    Except.ok (multiLoop pts (numPages / 12) 12 0 startMonth [])
  else Except.error (OcrError.invalidPageCount numPages)

/-- The per-invoice month loop of `ExcelService.write_invoices`
(src/estimate_proto/services/excel_service.py, lines 66-71): for
`m = 1..12` in order, copy the record's value for `m` — when present —
into the sheet's cell for `m`.  The twelve cells are modelled by the
month keys themselves. -/
def writeRecord (ws : Fields) (r : Fields) : Fields :=
  (List.range 12).foldl
    (fun ws m =>
      match getField r (m + 1) with
      | some v => setField ws (m + 1) v
      | none => ws)
    ws

/-- The `for invoice in invoices` fold of `ExcelService.write_invoices`:
records are processed in input order, later writes landing on the same
cells. -/
def mergeInvoices (records : List Fields) : Fields :=
  records.foldl writeRecord []

/-!  Dictionary lemmas. -/

theorem getField_nil (k : Nat) : getField ([] : Fields) k = none := rfl

theorem getField_cons (a : Nat) (b : String) (t : Fields) (k : Nat) :
    getField ((a, b) :: t) k = if a = k then some b else getField t k := by
  simp only [getField, List.find?]
  by_cases h : a = k <;> simp [h]

theorem getField_append (l₁ l₂ : Fields) (k : Nat) :
    getField (l₁ ++ l₂) k = (getField l₁ k).or (getField l₂ k) := by
  simp only [getField, List.find?_append]
  cases List.find? (fun p => p.1 = k) l₁ <;> simp [Option.or]

theorem getField_isSome_of_any (fs : Fields) (k : Nat)
    (h : fs.any (fun p => p.1 = k) = true) : ∃ w, getField fs k = some w := by
  induction fs with
  | nil => simp at h
  | cons p t ih =>
    obtain ⟨a, b⟩ := p
    rw [getField_cons]
    by_cases ha : a = k
    · exact ⟨b, by simp [ha]⟩
    · rw [if_neg ha]
      apply ih
      simpa [ha] using h

theorem getField_none_of_any_false (fs : Fields) (k : Nat)
    (h : fs.any (fun p => p.1 = k) = false) : getField fs k = none := by
  induction fs with
  | nil => rfl
  | cons p t ih =>
    obtain ⟨a, b⟩ := p
    simp only [List.any_cons, Bool.or_eq_false_iff] at h
    rw [getField_cons, if_neg (by simpa using h.1)]
    exact ih h.2

theorem getField_map_replace (t : Fields) (k : Nat) (v : String) (k' : Nat) :
    getField (t.map (fun p => if p.1 = k then (k, v) else p)) k' =
      if k' = k then Option.map (fun _ => v) (getField t k) else getField t k' := by
  induction t with
  | nil => by_cases h : k' = k <;> simp [h, getField_nil]
  | cons p t ih =>
    obtain ⟨a, b⟩ := p
    by_cases ha : a = k <;> by_cases hk : k' = k <;>
      by_cases hak : a = k' <;>
      simp_all [getField_cons, getField_nil]

/-- Python dict semantics of `setField`: the written key now maps to
the written value, every other key's lookup is untouched. -/
theorem getField_setField (fs : Fields) (k : Nat) (v : String) (k' : Nat) :
    getField (setField fs k v) k' = if k' = k then some v else getField fs k' := by
  unfold setField
  cases h : fs.any (fun p => p.1 = k) with
  | true =>
    rw [if_pos rfl, getField_map_replace]
    by_cases hk : k' = k
    · subst hk
      obtain ⟨w, hw⟩ := getField_isSome_of_any fs k' h
      simp [hw]
    · rw [if_neg hk, if_neg hk]
  | false =>
    rw [if_neg (by simp), getField_append]
    by_cases hk : k' = k
    · subst hk
      rw [getField_none_of_any_false fs k' h, if_pos rfl]
      simp [getField_cons, Option.or]
    · rw [if_neg hk]
      have : getField [(k, v)] k' = none := by
        rw [getField_cons, if_neg (fun h' => hk h'.symm)]
        rfl
      rw [this]
      cases getField fs k' <;> simp [Option.or]

/-- Master lemma for every field-building fold of the source: folding
optional writes over a list, the lookup of key `k` afterwards is the
value of the last write to `k`, falling back to the initial
dictionary. -/
theorem getField_foldl_write {α : Type} (f : α → Option (Nat × String)) (k : Nat) :
    ∀ (l : List α) (init : Fields),
      getField (l.foldl (fun fs a =>
          match f a with
          | some p => setField fs p.1 p.2
          | none => fs) init) k
        = (((l.filterMap f).filter (fun p => p.1 = k)).getLast?.map (·.2)).or
            (getField init k) := by
  intro l
  induction l with
  | nil => intro init; simp [Option.or]
  | cons a t ih =>
    intro init
    rw [List.foldl_cons, List.filterMap_cons]
    cases hfa : f a with
    | none => rw [ih]
    | some p =>
      rw [ih]
      have hcons : (p :: t.filterMap f).filter (fun q => q.1 = k)
          = if p.1 = k then p :: (t.filterMap f).filter (fun q => q.1 = k)
            else (t.filterMap f).filter (fun q => q.1 = k) := by
        by_cases hp : p.1 = k <;> simp [List.filter_cons, hp]
      rw [hcons, getField_setField]
      by_cases hp : p.1 = k
      · rw [if_pos hp, if_pos hp.symm]
        rcases hlast : ((t.filterMap f).filter (fun q => q.1 = k)).getLast? with _ | q
        · have hmid : (p :: (t.filterMap f).filter (fun q => q.1 = k)).getLast? = some p := by
            rcases hnil : (t.filterMap f).filter (fun q => q.1 = k) with _ | ⟨x, xs⟩
            · rw [hnil]; simp
            · rw [hnil] at hlast
              exact absurd hlast (by simp)
          rw [hlast, hmid]
          rfl
        · have hmid : (p :: (t.filterMap f).filter (fun q => q.1 = k)).getLast? = some q := by
            rcases hnil : (t.filterMap f).filter (fun q => q.1 = k) with _ | ⟨x, xs⟩
            · rw [hnil] at hlast; exact absurd hlast (by simp)
            · rw [hnil, List.getLast?_cons_cons, ← hnil, hlast]
          rw [hlast, hmid]
          rfl
      · rw [if_neg hp, if_neg (fun h => hp h.symm)]

/-- The left fold of `Nat.max` over a list (Python `max`) is an element
of the list. -/
theorem foldl_max_mem : ∀ (vs : List Nat) (v : Nat), vs.foldl Nat.max v ∈ v :: vs := by
  intro vs
  induction vs with
  | nil => intro v; simp
  | cons w ws ih =>
    intro v
    rw [List.foldl_cons]
    rcases List.mem_cons.mp (ih (Nat.max v w)) with h | h
    · rw [h]
      by_cases hvw : v ≤ w
      · have hm : Nat.max v w = w := Nat.max_eq_right hvw
        rw [hm]
        exact List.mem_cons_of_mem _ (List.mem_cons_self _ _)
      · have hm : Nat.max v w = v := Nat.max_eq_left (Nat.le_of_not_le hvw)
        rw [hm]
        exact List.mem_cons_self _ _
    · exact List.mem_cons_of_mem _ (List.mem_cons_of_mem _ h)

/-- Every element of the list is bounded by the left fold of
`Nat.max`. -/
theorem le_foldl_max : ∀ (vs : List Nat) (v w : Nat), w ∈ v :: vs → w ≤ vs.foldl Nat.max v := by
  intro vs
  induction vs with
  | nil =>
    intro v w h
    simp only [List.mem_cons, List.not_mem_nil, or_false] at h
    simp [h]
  | cons x xs ih =>
    intro v w h
    rw [List.foldl_cons]
    rcases List.mem_cons.mp h with h1 | h1
    · subst h1
      exact le_trans (Nat.le_max_left w x) (ih _ _ (List.mem_cons_self _ _))
    · rcases List.mem_cons.mp h1 with h2 | h2
      · subst h2
        exact le_trans (Nat.le_max_right v w) (ih _ _ (List.mem_cons_self _ _))
      · exact ih _ _ (List.mem_cons_of_mem _ h2)

/-- `Nat.toDigitsCore` never empties a non-empty accumulator. -/
theorem toDigitsCore_ne_nil_of_ne_nil (b : Nat) :
    ∀ (fuel n : Nat) (ds : List Char), ds ≠ [] → Nat.toDigitsCore b fuel n ds ≠ [] := by
  intro fuel
  induction fuel with
  | zero => intro n ds h; exact h
  | succ fuel ih =>
    intro n ds h
    simp only [Nat.toDigitsCore]
    split
    · exact List.cons_ne_nil _ _
    · exact ih _ _ (List.cons_ne_nil _ _)

/-- With positive fuel, `Nat.toDigitsCore` emits at least one digit. -/
theorem toDigitsCore_succ_ne_nil (b fuel n : Nat) (ds : List Char) :
    Nat.toDigitsCore b (fuel + 1) n ds ≠ [] := by
  simp only [Nat.toDigitsCore]
  split
  · exact List.cons_ne_nil _ _
  · exact toDigitsCore_ne_nil_of_ne_nil b fuel _ _ (List.cons_ne_nil _ _)

/-- The decimal string of a natural number is never empty (so a
non-empty scanner result encodes success faithfully). -/
theorem nat_toString_ne_empty (n : Nat) : toString n ≠ "" := by
  intro h
  have h2 : Nat.toDigitsCore 10 (n + 1) n [] = [] := congrArg String.data h
  exact toDigitsCore_succ_ne_nil 10 n n [] h2

/-- `setField` keeps the key list duplicate-free. -/
theorem keys_nodup_setField (fs : Fields) (k : Nat) (v : String)
    (h : (fs.map Prod.fst).Nodup) : ((setField fs k v).map Prod.fst).Nodup := by
  unfold setField
  cases hany : fs.any (fun p => p.1 = k) with
  | true =>
    rw [if_pos rfl]
    have hkeys : (fs.map (fun p => if p.1 = k then (k, v) else p)).map Prod.fst
        = fs.map Prod.fst := by
      rw [List.map_map]
      apply List.map_congr_left
      intro p _
      by_cases hp : p.1 = k <;> simp [hp]
    rw [hkeys]
    exact h
  | false =>
    rw [if_neg (by simp)]
    rw [List.map_append]
    refine List.Nodup.append h (List.nodup_singleton k) ?hd
    intro a ha hak
    simp only [List.map_cons, List.map_nil, List.mem_singleton] at hak
    subst hak
    obtain ⟨p, hp, hpk⟩ := List.mem_map.mp ha
    have : fs.any (fun p => p.1 = a) = true :=
      List.any_eq_true.mpr ⟨p, hp, by simpa using hpk⟩
    rw [hany] at this
    exact Bool.noConfusion this

/-- A fold of optional writes keeps the key list duplicate-free. -/
theorem keys_nodup_foldl_write {α : Type} (f : α → Option (Nat × String)) :
    ∀ (l : List α) (init : Fields), (init.map Prod.fst).Nodup →
      (((l.foldl (fun fs a =>
          match f a with
          | some p => setField fs p.1 p.2
          | none => fs) init)).map Prod.fst).Nodup := by
  intro l
  induction l with
  | nil => intro init h; exact h
  | cons a t ih =>
    intro init h
    rw [List.foldl_cons]
    cases hfa : f a with
    | none => simp only [hfa]; exact ih init h
    | some p => simp only [hfa]; exact ih _ (keys_nodup_setField init p.1 p.2 h)

/-- `start_month` advanced `i` steps by `OcrService._next_month`. -/
def advanceMonth : Nat → Nat → Nat
  | m, 0 => m
  | m, i + 1 => advanceMonth (nextMonth m) i

/-- The state-carrying page-group loop equals an index-driven fold:
iteration `j` (counting from the loop entry at index `i` and month `cm`)
handles group `i + j` with month `advanceMonth cm j`. -/
theorem multiLoop_eq_range_foldl (pts : List (List Char)) (ppm : Nat) :
    ∀ (count i cm : Nat) (fields : Fields),
      multiLoop pts ppm count i cm fields =
        (List.range count).foldl
          (fun fs j => multiStep pts ppm (i + j) (advanceMonth cm j) fs) fields := by
  intro count
  induction count with
  | zero => intro i cm fields; rfl
  | succ count ih =>
    intro i cm fields
    show multiLoop pts ppm count (i + 1) (nextMonth cm) (multiStep pts ppm i cm fields)
      = _
    rw [ih (i + 1) (nextMonth cm)]
    rw [List.range_succ_eq_map, List.foldl_cons, List.foldl_map]
    have harg : (fun (fs : Fields) (j : Nat) =>
        multiStep pts ppm (i + 1 + j) (advanceMonth (nextMonth cm) j) fs) =
        (fun (fs : Fields) (j : Nat) =>
          multiStep pts ppm (i + (j + 1)) (advanceMonth cm (j + 1)) fs) := by
      funext fs j
      rw [show i + 1 + j = i + (j + 1) by omega]
      rfl
    rw [harg]
    rfl

/-- Closed form of the advancing month: for a start month in `[1,12]`
the `i`-th group's calendar month is `startMonth` advanced `i`
positions, wrapping from 12 back to 1. -/
theorem advanceMonth_closed :
    ∀ (i m : Nat), 1 ≤ m → m ≤ 12 → advanceMonth m i = (m - 1 + i) % 12 + 1 := by
  intro i
  induction i with
  | zero =>
    intro m h1 h2
    show m = (m - 1 + 0) % 12 + 1
    omega
  | succ i ih =>
    intro m h1 h2
    show advanceMonth (nextMonth m) i = (m - 1 + (i + 1)) % 12 + 1
    by_cases hm : m = 12
    · rw [ih (nextMonth m) (by simp [nextMonth, hm]) (by simp [nextMonth, hm])]
      subst hm
      have hn : nextMonth 12 = 1 := rfl
      rw [hn]
      omega
    · rw [ih (nextMonth m) (by simp only [nextMonth, if_neg hm]; omega)
        (by simp only [nextMonth, if_neg hm]; omega)]
      simp only [nextMonth, if_neg hm]
      omega

/-- Lookup after the month loop of `write_invoices` over months
`1..n`: within range the record's value overrides the sheet, outside
it the sheet is untouched. -/
theorem getField_writeRecord_aux (r : Fields) (k : Nat) :
    ∀ (n : Nat) (ws : Fields),
      getField ((List.range n).foldl (fun ws m =>
          match getField r (m + 1) with
          | some v => setField ws (m + 1) v
          | none => ws) ws) k =
        if 1 ≤ k ∧ k ≤ n then (getField r k).or (getField ws k) else getField ws k := by
  intro n
  induction n with
  | zero =>
    intro ws
    rw [if_neg (by omega)]
    rfl
  | succ n ih =>
    intro ws
    rw [List.range_succ, List.foldl_append, List.foldl_cons, List.foldl_nil]
    cases hr : getField r (n + 1) with
    | some v =>
      simp only [hr]
      rw [getField_setField, ih ws]
      by_cases hk : k = n + 1
      · subst hk
        rw [if_pos rfl, if_pos (show 1 ≤ n + 1 ∧ n + 1 ≤ n + 1 by omega), hr]
        rfl
      · rw [if_neg hk]
        by_cases hkn : 1 ≤ k ∧ k ≤ n
        · rw [if_pos hkn, if_pos (show 1 ≤ k ∧ k ≤ n + 1 by omega)]
        · rw [if_neg hkn, if_neg (show ¬(1 ≤ k ∧ k ≤ n + 1) by omega)]
    | none =>
      simp only [hr]
      rw [ih ws]
      by_cases hk : k = n + 1
      · subst hk
        rw [if_neg (show ¬(1 ≤ n + 1 ∧ n + 1 ≤ n) by omega),
          if_pos (show 1 ≤ n + 1 ∧ n + 1 ≤ n + 1 by omega), hr]
        rfl
      · by_cases hkn : 1 ≤ k ∧ k ≤ n
        · rw [if_pos hkn, if_pos (show 1 ≤ k ∧ k ≤ n + 1 by omega)]
        · rw [if_neg hkn, if_neg (show ¬(1 ≤ k ∧ k ≤ n + 1) by omega)]

/-- `writeRecord` on a month key in `[1,12]`: the record wins when it
has the key, else the sheet keeps its value. -/
theorem getField_writeRecord (ws r : Fields) (k : Nat)
    (h1 : 1 ≤ k) (h2 : k ≤ 12) :
    getField (writeRecord ws r) k = (getField r k).or (getField ws k) := by
  unfold writeRecord
  rw [getField_writeRecord_aux r k 12 ws, if_pos ⟨h1, h2⟩]

/-- Folding `writeRecord` over the batch: the last record holding the
key wins, falling back to the starting sheet. -/
theorem getField_foldl_writeRecord (k : Nat) (h1 : 1 ≤ k) (h2 : k ≤ 12) :
    ∀ (records : List Fields) (acc : Fields),
      getField (records.foldl writeRecord acc) k =
        ((records.filterMap (fun r => getField r k)).getLast?).or (getField acc k) := by
  intro records
  induction records with
  | nil => intro acc; rfl
  | cons r rs ih =>
    intro acc
    rw [List.foldl_cons, List.filterMap_cons, ih]
    cases hr : getField r k with
    | none =>
      rw [getField_writeRecord acc r k h1 h2, hr]
      rfl
    | some v =>
      rw [getField_writeRecord acc r k h1 h2, hr]
      have hcons : ((v :: rs.filterMap (fun r => getField r k)).getLast?) =
          ((rs.filterMap (fun r => getField r k)).getLast?).or (some v) := by
        rcases hnil : rs.filterMap (fun r => getField r k) with _ | ⟨x, xs⟩
        · rfl
        · rw [List.getLast?_cons_cons]
          cases hx : (x :: xs).getLast? with
          | none => exact absurd hx (by simp)
          | some q => rfl
      rw [hcons]
      cases (rs.filterMap (fun r => getField r k)).getLast? <;> rfl

/-!  The equalities between the duplicated source variants. -/

/-- `extract_month` (estimate_proto) and `extract_month_for_single`
(app) are the same function. -/
theorem extract_month_eq_variant : extract_month = extract_month_for_single := rfl

/-- `extract_kwh_value` (estimate_proto) and `extract_kwh_single` (app)
are the same function. -/
theorem extract_kwh_value_eq_variant : extract_kwh_value = extract_kwh_single := rfl

/-!  Claim theorems. -/

/-- C5: the month-shift convention of every record-building strategy:
`shift month = month - 1` for `month ∈ [2,12]`, and `shift 1 = 12`. -/
theorem c5_shift_law :
    (∀ m : Nat, 2 ≤ m → m ≤ 12 → shift m = m - 1) ∧ shift 1 = 12 := by
  constructor
  · intro m h1 _
    unfold shift
    rw [if_neg (by omega)]
  · rfl

/-- C3: whenever at least one well-formed, non-zero, kWh-tagged value
occurs, the scanner (both source variants) returns the maximum of all
such values; in particular a text whose valid values are exactly
`v1 < v2` yields `v2`. -/
theorem c3_scanner_returns_maximum :
    (∀ cs : List Char, kwhValues cs ≠ [] →
      ∃ v, v ∈ kwhValues cs ∧ (∀ w ∈ kwhValues cs, w ≤ v) ∧
        extract_kwh_single cs = toString v ∧ extract_kwh_value cs = toString v) ∧
    (∀ (cs : List Char) (v1 v2 : Nat), kwhValues cs = [v1, v2] → v1 < v2 →
      extract_kwh_single cs = toString v2) ∧
    kwhValues ("100kWh 200kWh".toList) = [100, 200] ∧
    extract_kwh_single ("100kWh 200kWh".toList) = "200" := by
  refine ⟨?_, ?_, by decide, by decide⟩
  · intro cs h
    rcases hv : kwhValues cs with _ | ⟨v, vs⟩
    · exact absurd hv h
    · refine ⟨vs.foldl Nat.max v, ?_, ?_, ?_, ?_⟩
      · exact foldl_max_mem vs v
      · intro w hw
        exact le_foldl_max vs v w hw
      · simp only [extract_kwh_single, hv]
      · simp only [extract_kwh_value, hv]
  · intro cs v1 v2 hv hlt
    simp only [extract_kwh_single, hv]
    have hmax : [v2].foldl Nat.max v1 = v2 := by
      show Nat.max v1 v2 = v2
      exact Nat.max_eq_right (Nat.le_of_lt hlt)
    rw [hmax]

/-- C4: the scanner returns the empty string exactly when no
well-formed, non-zero kWh-tagged value survives; in particular a text
without kWh matches yields empty, a parse-failing match (a pure comma
group) is silently skipped, and a lone zero match yields empty. -/
theorem c4_scanner_empty_iff :
    (∀ cs : List Char, extract_kwh_single cs = "" ↔ kwhValues cs = []) ∧
    (∀ cs : List Char, kwhMatches cs = [] → extract_kwh_single cs = "") ∧
    extract_kwh_single ("0kWh".toList) = "" ∧
    extract_kwh_from_segment ("0kWh".toList) = none ∧
    extract_kwh_single (",kWh 5kWh".toList) = "5" := by
  refine ⟨?_, ?_, by decide, by decide, by decide⟩
  · intro cs
    constructor
    · intro h
      rcases hv : kwhValues cs with _ | ⟨v, vs⟩
      · rfl
      · have h2 : extract_kwh_single cs = toString (vs.foldl Nat.max v) := by
          simp only [extract_kwh_single, hv]
        rw [h2] at h
        exact absurd h (nat_toString_ne_empty (vs.foldl Nat.max v))
    · intro h
      simp only [extract_kwh_single, h]
  · intro cs h
    have hval : kwhValues cs = [] := by
      simp [kwhValues, h]
    simp only [extract_kwh_single, hval]

/-- C6: the paginated strategy succeeds exactly for page counts 12, 24
and 36; any other count — 13 in particular — fails with the
invalid-page-count error and yields no record. -/
theorem c6_paginated_page_count :
    (∀ (pts : List (List Char)) (sm : Nat),
      ((∃ f, analyzeMulti pts sm = Except.ok f) ↔
        (pts.length = 12 ∨ pts.length = 24 ∨ pts.length = 36)) ∧
      (¬(pts.length = 12 ∨ pts.length = 24 ∨ pts.length = 36) →
        analyzeMulti pts sm = Except.error (OcrError.invalidPageCount pts.length))) ∧
    (∀ sm : Nat, analyzeMulti (List.replicate 13 ([] : List Char)) sm =
      Except.error (OcrError.invalidPageCount 13)) := by
  constructor
  · intro pts sm
    constructor
    · constructor
      · rintro ⟨f, hf⟩
        by_contra hlen
        simp only [analyzeMulti, if_neg hlen] at hf
        exact Except.noConfusion hf
      · intro hlen
        exact ⟨multiLoop pts (pts.length / 12) 12 0 sm [],
          by simp only [analyzeMulti, if_pos hlen]⟩
    · intro hlen
      simp only [analyzeMulti, if_neg hlen]
  · intro sm
    rfl

/-- C8: the aggregator processes records in input order and, for every
month key in `[1,12]`, the last record containing that key determines
the final value; a key absent from every record stays absent. -/
theorem c8_merge_last_writer_wins (records : List Fields) (k : Nat)
    (h1 : 1 ≤ k) (h2 : k ≤ 12) :
    getField (mergeInvoices records) k =
      (records.filterMap (fun r => getField r k)).getLast? ∧
    ((∀ r ∈ records, getField r k = none) → getField (mergeInvoices records) k = none) := by
  have hmain := getField_foldl_writeRecord k h1 h2 records []
  have hbase : getField (mergeInvoices records) k =
      (records.filterMap (fun r => getField r k)).getLast? := by
    rw [mergeInvoices, hmain]
    cases (records.filterMap (fun r => getField r k)).getLast? <;> rfl
  refine ⟨hbase, ?_⟩
  intro habs
  rw [hbase, List.filterMap_eq_nil_iff.mpr habs]
  rfl

/-- Witness for C8 at the spec's own example: merging
`[{1: "100"}, {1: "200"}]` leaves `"200"` at key 1. -/
theorem c8_merge_last_writer_wins_witness :
    getField (mergeInvoices [[(1, "100")], [(1, "200")]]) 1 = some "200" := by
  rw [(c8_merge_last_writer_wins [[(1, "100")], [(1, "200")]] 1
    (by decide) (by decide)).1]
  rfl

/-- C9: the whole-document single-period builder emits exactly the one
entry `{shift month: value}` when both the locator and the scanner
succeed, the empty record when either fails (both source variants agree);
the spec's example text yields `{1: "12345"}`. -/
theorem c9_single_builder :
    (∀ cs : List Char,
      (∀ m : Nat, extract_month_for_single cs = some m → extract_kwh_single cs ≠ "" →
        fromTextSingle cs = [(shift m, extract_kwh_single cs)]) ∧
      (extract_month_for_single cs = none ∨ extract_kwh_single cs = "" →
        fromTextSingle cs = []) ∧
      fromTextProto cs = fromTextSingle cs) ∧
    fromTextSingle ("2024年2月分ご請求 お客様番号 12,345kWh 合計".toList)
      = [(1, "12345")] := by
  constructor
  · intro cs
    refine ⟨?_, ?_, rfl⟩
    · intro m hm hk
      simp only [fromTextSingle, hm, if_pos hk]
      rfl
    · rintro (hm | hk)
      · simp only [fromTextSingle, hm]
      · simp only [fromTextSingle, hk]
        cases extract_month_for_single cs <;> simp
  · decide

/-- C10: in the text-based multi-period builder the lookup of any key
is the value of the last segment (in document order) with that shifted
key whose scan succeeded — a later duplicate overwrites, a later failed
scan leaves the earlier value — and the record keeps at most one value
per key; concretely, two `5月` segments whose scans both succeed keep
the later value, and a failed later scan keeps the earlier one. -/
theorem c10_multi_duplicate_months :
    (∀ (cs : List Char) (k : Nat),
      getField (fromTextMulti cs) k =
        ((((extract_month_segments cs).filterMap (fun seg =>
            (extract_kwh_from_segment (pySlice cs seg.2.1 seg.2.2)).map
              (fun v => (shift seg.1, toString v)))).filter
          (fun p => p.1 = k)).getLast?).map (·.2)) ∧
    (∀ cs : List Char, ((fromTextMulti cs).map Prod.fst).Nodup) ∧
    fromTextMulti ("5月 100kWh 5月 200kWh".toList) = [(4, "200")] ∧
    fromTextMulti ("5月 100kWh 5月 x".toList) = [(4, "100")] := by
  have hbody : ∀ cs : List Char,
      (fun (fields : Fields) (seg : Nat × Nat × Nat) =>
        match extract_kwh_from_segment (pySlice cs seg.2.1 seg.2.2) with
        | some v => setField fields (shift seg.1) (toString v)
        | none => fields) =
      (fun (fields : Fields) (seg : Nat × Nat × Nat) =>
        match (extract_kwh_from_segment (pySlice cs seg.2.1 seg.2.2)).map
            (fun v => (shift seg.1, toString v)) with
        | some p => setField fields p.1 p.2
        | none => fields) := by
    intro cs
    funext fields seg
    cases extract_kwh_from_segment (pySlice cs seg.2.1 seg.2.2) <;> rfl
  refine ⟨?_, ?_, by decide, by decide⟩
  · intro cs k
    rw [fromTextMulti, hbody cs, getField_foldl_write]
    cases ((((extract_month_segments cs).filterMap (fun seg =>
        (extract_kwh_from_segment (pySlice cs seg.2.1 seg.2.2)).map
          (fun v => (shift seg.1, toString v)))).filter
        (fun p => p.1 = k)).getLast?) <;> rfl
  · intro cs
    rw [fromTextMulti, hbody cs]
    exact keys_nodup_foldl_write _ (extract_month_segments cs) [] (by simp)

/-- C7: for a valid page count and a start month in `[1,12]`, the
paginated strategy builds its record by iterating `i = 0..11`, where
group `i` is the join of pages `[i*ppm, (i+1)*ppm)` with
`ppm = pageCount / 12`, its calendar month is `startMonth` advanced `i`
positions wrapping 12 back to 1 (closed form `(sm - 1 + i) % 12 + 1`),
and a successful scan writes `{shift groupMonth: value}`; start month
11 assigns months 11, 12, 1, ..., 10 in order. -/
theorem c7_paginated_group_assignment (pts : List (List Char)) (sm : Nat)
    (h1 : 1 ≤ sm) (h2 : sm ≤ 12)
    (h3 : pts.length = 12 ∨ pts.length = 24 ∨ pts.length = 36) :
    analyzeMulti pts sm = Except.ok
      ((List.range 12).foldl (fun fields i =>
        let ppm := pts.length / 12
        let groupText := joinPages ((pts.drop (i * ppm)).take ppm)
        let groupMonth := (sm - 1 + i) % 12 + 1
        let kwh := extract_kwh_from_text groupText
        if kwh ≠ "" then setField fields (shift groupMonth) kwh else fields) []) ∧
    (List.range 12).map (fun i => (11 - 1 + i) % 12 + 1)
      = [11, 12, 1, 2, 3, 4, 5, 6, 7, 8, 9, 10] := by
  refine ⟨?_, by decide⟩
  show analyzeMulti pts sm = _
  rw [analyzeMulti]
  rw [if_pos h3]
  rw [multiLoop_eq_range_foldl]
  have harg : (fun (fs : Fields) (j : Nat) =>
      multiStep pts (pts.length / 12) (0 + j) (advanceMonth sm j) fs) =
      (fun (fields : Fields) (i : Nat) =>
        let ppm := pts.length / 12
        let groupText := joinPages ((pts.drop (i * ppm)).take ppm)
        let groupMonth := (sm - 1 + i) % 12 + 1
        let kwh := extract_kwh_from_text groupText
        if kwh ≠ "" then setField fields (shift groupMonth) kwh else fields) := by
    funext fs j
    rw [Nat.zero_add, advanceMonth_closed j sm h1 h2]
    rfl
  rw [harg]

/-- Witness for C7: twelve one-page groups all reading `7kWh`, start
month 11 — the keys run 10, 11, 12, 1, ..., 9 in group order. -/
theorem c7_paginated_group_assignment_witness :
    analyzeMulti (List.replicate 12 ['7', 'k', 'W', 'h']) 11 =
      Except.ok [(10, "7"), (11, "7"), (12, "7"), (1, "7"), (2, "7"), (3, "7"),
        (4, "7"), (5, "7"), (6, "7"), (7, "7"), (8, "7"), (9, "7")] := by
  rw [(c7_paginated_group_assignment (List.replicate 12 ['7', 'k', 'W', 'h']) 11
    (by decide) (by decide) (by decide)).1]
  rfl

/-- Counterexample to C1 as stated: in `"3月a13月"` the only retained
occurrence is `(3, offset 0)` (the `13月` occurrence is discarded), so
the claim demands its segment to end at the text length 6; the code
ends it at 3, the start of the *discarded* occurrence — a discarded
occurrence does reset the boundary of a surviving segment. -/
theorem c1_counterexample :
    extract_month_segments ("3月a13月".toList) = [(3, 0, 3)] ∧
    ("3月a13月".toList).length = 6 ∧
    findMonthMarkers ("3月a13月".toList) = [(3, 0), (13, 3)] := by
  refine ⟨by decide, by decide, by decide⟩

/-- C1 amended: a kept occurrence's segment runs from its own offset to
the start of the next occurrence *of the full match list* — retained or
discarded — and only an occurrence that is last in the full list has
its segment end at the text length. -/
theorem c1_amended_segment_boundaries :
    ∀ (cs : List Char) (m s e : Nat),
      (m, s, e) ∈ extract_month_segments cs ↔
        ∃ idx, (findMonthMarkers cs).get? idx = some (m, s) ∧
          1 ≤ m ∧ m ≤ 12 ∧
          (((findMonthMarkers cs).get? (idx + 1) = none ∧ e = cs.length) ∨
            (∃ next, (findMonthMarkers cs).get? (idx + 1) = some next ∧ e = next.2)) := by
  intro cs m s e
  simp only [extract_month_segments, List.mem_filterMap, List.mem_range]
  constructor
  · rintro ⟨idx, hidx, hf⟩
    refine ⟨idx, ?_⟩
    rcases hms : (findMonthMarkers cs).get? idx with _ | ⟨m', s'⟩
    · rw [hms] at hf
      exact absurd hf (by simp)
    · rw [hms] at hf
      dsimp only at hf
      by_cases hv : 1 ≤ m' ∧ m' ≤ 12
      · rw [if_pos hv] at hf
        rcases hnext : (findMonthMarkers cs).get? (idx + 1) with _ | ⟨q1, q2⟩
        · rw [hnext] at hf
          dsimp only at hf
          simp only [Option.some.injEq, Prod.mk.injEq] at hf
          obtain ⟨h1, h2, h3⟩ := hf
          subst h1; subst h2
          exact ⟨rfl, hv.1, hv.2, Or.inl ⟨rfl, h3.symm⟩⟩
        · rw [hnext] at hf
          dsimp only at hf
          simp only [Option.some.injEq, Prod.mk.injEq] at hf
          obtain ⟨h1, h2, h3⟩ := hf
          subst h1; subst h2
          exact ⟨rfl, hv.1, hv.2, Or.inr ⟨(q1, q2), rfl, h3.symm⟩⟩
      · rw [if_neg hv] at hf
        exact absurd hf (by simp)
  · rintro ⟨idx, hms, hv1, hv2, hend⟩
    refine ⟨idx, ?_, ?_⟩
    · exact (List.get?_eq_some.mp hms).1
    · rw [hms]
      dsimp only
      rw [if_pos ⟨hv1, hv2⟩]
      rcases hend with ⟨hnext, he⟩ | ⟨next, hnext, he⟩
      · rw [hnext]
        dsimp only
        rw [he]
      · rw [hnext]
        dsimp only
        rw [he]

/-- The three prioritized suffix patterns of the single-period locator:
suffix literal and lookahead window. -/
def prioritizedPatterns : List (List Char × Nat) :=
  [(suffixGoShiyoubun, 5), (suffixGoSeikyuubun, 5), (suffixBun, 0)]

/-- The single-period locator exactly as claim C2 words it (written
from the claim, for comparison with `extract_month_for_single`): the
patterns are tried in order and the *first pattern that matches
anywhere in the text wins*, its captured number then validated to
`[1,12]`; only when no prioritized pattern matches at all does the bare
fallback run; a winner with an out-of-range number yields empty. -/
def locateSinglePeriodClaimed (cs : List Char) : Option Nat :=
  match searchPat suffixGoShiyoubun 5 cs with
  | some m => if validMonth m then some m else none
  | none =>
    match searchPat suffixGoSeikyuubun 5 cs with
    | some m => if validMonth m then some m else none
    | none =>
      match searchPat suffixBun 0 cs with
      | some m => if validMonth m then some m else none
      | none =>
        match searchPat [] 0 cs with
        | some m => if validMonth m then some m else none
        | none => none

/-- The single-period locator as the amended claim words it: scanning
the prioritized patterns in order, the first one whose leftmost match
captures a number in `[1,12]` wins; a pattern that does not match, or
whose leftmost match's number is out of range, is skipped alike; when
no prioritized pattern yields a valid month the first bare month-marker
occurrence is used, validated to `[1,12]`. -/
def locateSinglePeriodAmended (cs : List Char) : Option Nat :=
  match (prioritizedPatterns.filterMap (fun pat =>
      match searchPat pat.1 pat.2 cs with
      | some m => if validMonth m then some m else none
      | none => none)).head? with
  | some m => some m
  | none =>
    match searchPat [] 0 cs with
    | some m => if validMonth m then some m else none
    | none => none

/-- Counterexample to C2 as stated: in `"13月ご使用分5月分"` the first
prioritized pattern does match (capturing the out-of-range 13), so the
claim demands empty; the code falls through and the third pattern
returns 5 (both source variants). -/
theorem c2_counterexample :
    searchPat suffixGoShiyoubun 5 ("13月ご使用分5月分".toList) = some 13 ∧
    validMonth 13 = false ∧
    extract_month_for_single ("13月ご使用分5月分".toList) = some 5 ∧
    extract_month ("13月ご使用分5月分".toList) = some 5 ∧
    locateSinglePeriodClaimed ("13月ご使用分5月分".toList) = none := by
  refine ⟨by decide, by decide, by decide, by decide, by decide⟩

/-- A successful `patStep` comes from its own validated pattern or from
the rest of the chain. -/
theorem patStep_some (r next : Option Nat) (m : Nat)
    (h : patStep r next = some m) :
    (r = some m ∧ validMonth m = true) ∨ next = some m := by
  rcases r with _ | m'
  · exact Or.inr h
  · unfold patStep at h
    dsimp only at h
    by_cases hv : validMonth m' = true
    · rw [if_pos hv] at h
      left
      cases h
      exact ⟨rfl, hv⟩
    · rw [if_neg hv] at h
      exact Or.inr h

/-- C2 amended: the locator (both source variants agree) equals the
prioritized chain in which a pattern wins only when its leftmost
match's number is valid — an invalid leftmost match falls through to
the next pattern and finally to the first bare month marker — and any
returned month lies in `[1,12]`. -/
theorem c2_amended_locator :
    (∀ cs : List Char, extract_month_for_single cs = locateSinglePeriodAmended cs) ∧
    (∀ cs : List Char, extract_month cs = extract_month_for_single cs) ∧
    (∀ (cs : List Char) (m : Nat), extract_month_for_single cs = some m →
      1 ≤ m ∧ m ≤ 12) := by
  refine ⟨?_, fun _ => rfl, ?_⟩
  · intro cs
    unfold extract_month_for_single locateSinglePeriodAmended prioritizedPatterns
    simp only [List.filterMap_cons, List.filterMap_nil]
    cases h1 : searchPat suffixGoShiyoubun 5 cs with
    | some m1 =>
      by_cases hv1 : validMonth m1 = true
      · simp [patStep, hv1]
      · simp only [patStep, if_neg hv1]
        cases h2 : searchPat suffixGoSeikyuubun 5 cs with
        | some m2 =>
          by_cases hv2 : validMonth m2 = true
          · simp [patStep, hv2]
          · simp only [patStep, if_neg hv2]
            cases h3 : searchPat suffixBun 0 cs with
            | some m3 =>
              by_cases hv3 : validMonth m3 = true
              · simp [patStep, hv3]
              · simp only [patStep, if_neg hv3]
                rfl
            | none => rfl
        | none =>
          cases h3 : searchPat suffixBun 0 cs with
          | some m3 =>
            by_cases hv3 : validMonth m3 = true
            · simp [patStep, hv3]
            · simp only [patStep, if_neg hv3]
              rfl
          | none => rfl
    | none =>
      simp only [patStep]
      cases h2 : searchPat suffixGoSeikyuubun 5 cs with
      | some m2 =>
        by_cases hv2 : validMonth m2 = true
        · simp [patStep, hv2]
        · simp only [patStep, if_neg hv2]
          cases h3 : searchPat suffixBun 0 cs with
          | some m3 =>
            by_cases hv3 : validMonth m3 = true
            · simp [patStep, hv3]
            · simp only [patStep, if_neg hv3]
              rfl
          | none => rfl
      | none =>
        cases h3 : searchPat suffixBun 0 cs with
        | some m3 =>
          by_cases hv3 : validMonth m3 = true
          · simp [patStep, hv3]
          · simp only [patStep, if_neg hv3]
            rfl
        | none => rfl
  · intro cs m h
    unfold extract_month_for_single at h
    have hvalid : validMonth m = true := by
      rcases patStep_some _ _ _ h with ⟨_, hv⟩ | h
      · exact hv
      rcases patStep_some _ _ _ h with ⟨_, hv⟩ | h
      · exact hv
      rcases patStep_some _ _ _ h with ⟨_, hv⟩ | h
      · exact hv
      rcases hlast : searchPat [] 0 cs with _ | m'
      · rw [hlast] at h
        exact absurd h (by simp)
      · rw [hlast] at h
        dsimp only at h
        by_cases hv : validMonth m' = true
        · rw [if_pos hv] at h
          cases h
          exact hv
        · rw [if_neg hv] at h
          exact absurd h (by simp)
    simpa [validMonth] using hvalid

end Mitsumori
